import Mathlib

/-!
Shallow embedding of the pattern-matching and redaction-geometry engine of
`src/app.py` (`process_file`).  Text is modelled as `List Char`, exact
coordinates as `ℚ`, and Python `int()` as truncation toward zero.  The OCR
engine (`easyocr.readtext`) and the digital text-layer search
(`page.search_for`) are external collaborators and appear as parameters.
-/

namespace DocShade

/-- Python `int()` applied to an exact numeric value: truncation toward zero. -/
def truncQ (q : ℚ) : ℤ := if q < 0 then ⌈q⌉ else ⌊q⌋

/-- One entry of the `ocr_words` list built in `process_file`:
an atomic word fragment with its rectangular box in recognizer pixel space. -/
structure Word where
  text : List Char
  left : ℚ
  top : ℚ
  width : ℚ
  height : ℚ
deriving DecidableEq

/-- A rectangle with exact rational coordinates (a fitz rect, or the
pre-truncation value of `rect_coords`). -/
structure QRect where
  x0 : ℚ
  y0 : ℚ
  x1 : ℚ
  y1 : ℚ
deriving DecidableEq

/-- `rect_coords` as built in `process_file`: four `int()`-truncated values. -/
structure Region where
  x0 : ℤ
  y0 : ℤ
  x1 : ℤ
  y1 : ℤ
deriving DecidableEq

/-- `normalize_text` from `process_file`: lower-case, keep only alphanumeric
and whitespace characters, then remove space characters. -/
def normalize_text (s : List Char) : List Char :=
  ((s.map Char.toLower).filter (fun c => c.isAlphanum || c.isWhitespace)).filter
    (fun c => c != ' ')

/-- Python `str.strip()`: drop leading and trailing whitespace. -/
def pyStrip (s : List Char) : List Char :=
  ((s.dropWhile Char.isWhitespace).reverse.dropWhile Char.isWhitespace).reverse

/-- Worker for `pySplit`, accumulating the current token reversed. -/
def splitAux : List Char → List Char → List (List Char)
  | [], acc => if acc.isEmpty then [] else [acc.reverse]
  | c :: cs, acc =>
    if c.isWhitespace then
      if acc.isEmpty then splitAux cs [] else acc.reverse :: splitAux cs []
    else splitAux cs (c :: acc)

/-- Python `str.split()` with no argument: split on whitespace runs,
dropping empty pieces. -/
def pySplit (s : List Char) : List (List Char) := splitAux s []

/-- One entry of the easyocr `readtext` output: a quadrilateral (four
points), the recognized text, and a confidence value. -/
structure RawResult where
  q1 : ℚ × ℚ
  q2 : ℚ × ℚ
  q3 : ℚ × ℚ
  q4 : ℚ × ℚ
  text : List Char
  prob : ℚ
deriving DecidableEq

/-- `left = min(xs)` over the quadrilateral's x coordinates. -/
def rawLeft (r : RawResult) : ℚ := min (min (min r.q1.1 r.q2.1) r.q3.1) r.q4.1

/-- `top = min(ys)` over the quadrilateral's y coordinates. -/
def rawTop (r : RawResult) : ℚ := min (min (min r.q1.2 r.q2.2) r.q3.2) r.q4.2

/-- `width = max(xs) - left`. -/
def rawWidth (r : RawResult) : ℚ :=
  max (max (max r.q1.1 r.q2.1) r.q3.1) r.q4.1 - rawLeft r

/-- `height = max(ys) - top`. -/
def rawHeight (r : RawResult) : ℚ :=
  max (max (max r.q1.2 r.q2.2) r.q3.2) r.q4.2 - rawTop r

/-- The multi-word splitting loop of `process_file`: place each token at the
running position, with width `len(word) * char_width`, advancing by the
token's width plus one average character width. -/
def placeTokens : List (List Char) → ℚ → ℚ → ℚ → ℚ → List Word
  | [], _, _, _, _ => []
  | t :: ts, cw, pos, tp, h =>
    ⟨t, pos, tp, (t.length : ℚ) * cw, h⟩ ::
      placeTokens ts cw (pos + (t.length : ℚ) * cw + cw) tp h

/-- Fragments contributed by one raw OCR result: confidence filter
(`prob > 0.05 and text.strip()`), bounding box from the quadrilateral, and
proportional multi-word splitting. -/
def fragmentsOfResult (r : RawResult) : List Word :=
  if 1/20 < r.prob ∧ pyStrip r.text ≠ [] then
    if 1 < (pySplit (pyStrip r.text)).length then
      placeTokens (pySplit (pyStrip r.text)) (rawWidth r / (((pyStrip r.text).length : ℚ)))
        (rawLeft r) (rawTop r) (rawHeight r)
    else
      [⟨pyStrip r.text, rawLeft r, rawTop r, rawWidth r, rawHeight r⟩]
  else []

/-- The `ocr_words` list built from all raw results, in emission order. -/
def build_ocr_words (rs : List RawResult) : List Word :=
  (rs.map fragmentsOfResult).flatten

/-- `min(f(w) for w in wl)` for a nonempty `wl` (junk value `0` on `[]`). -/
def foldMin (f : Word → ℚ) : List Word → ℚ
  | [] => 0
  | w :: ws => ws.foldl (fun a v => min a (f v)) (f w)

/-- `max(f(w) for w in wl)` for a nonempty `wl` (junk value `0` on `[]`). -/
def foldMax (f : Word → ℚ) : List Word → ℚ
  | [] => 0
  | w :: ws => ws.foldl (fun a v => max a (f v)) (f w)

/-- `min_left`, `min_top`, `max_right`, `max_bottom` of a word list, before
scaling and truncation. -/
def aabbOf (wl : List Word) : QRect :=
  ⟨foldMin (fun w => w.left) wl, foldMin (fun w => w.top) wl,
   foldMax (fun w => w.left + w.width) wl, foldMax (fun w => w.top + w.height) wl⟩

/-- Apply the scale factor and then `int()` to each coordinate, exactly as
the `rect_coords` tuples are computed. -/
def scaleTrunc (q : QRect) (s : ℚ) : Region :=
  ⟨truncQ (q.x0 * s), truncQ (q.y0 * s), truncQ (q.x1 * s), truncQ (q.y1 * s)⟩

/-- The four coordinate values after scaling but before `int()` truncation. -/
def preCoords (q : QRect) (s : ℚ) : QRect := ⟨q.x0 * s, q.y0 * s, q.x1 * s, q.y1 * s⟩

/-- Single-word region with the right-padding factor kept as a parameter
(the source hardcodes `1.15`). -/
def toRegionSingle (w : Word) (s pad : ℚ) : Region :=
  scaleTrunc ⟨w.left, w.top, w.left + w.width * pad, w.top + w.height⟩ s

/-- The single-word `rect_coords` of `process_file`:
`padded_width = width * 1.15` applied on the right. -/
def rectSingle (w : Word) (s : ℚ) : Region := toRegionSingle w s (23/20)

/-- The multi-word `rect_coords` of `process_file`: the bounding box of the
member words, scaled and truncated, with no padding. -/
def rectMulti (wl : List Word) (s : ℚ) : Region := scaleTrunc (aabbOf wl) s

/-- A match span as emitted by the three matching tiers. -/
inductive Emit where
  | single (w : Word)
  | multi (wl : List Word)
  | fallback (wl : List Word)
deriving DecidableEq

/-- Length of a word's normalized text. -/
def normLen (w : Word) : Nat := (normalize_text w.text).length

/-- The `while` loop of `process_file` extending a candidate multi-word span:
append following words while the combined normalized text is shorter than
the pattern's normalized text. -/
def greedyExtend : List Word → List Char → List Word → Nat → List Char × List Word
  | [], c, acc, _ => (c, acc)
  | w :: ws, c, acc, plen =>
    if c.length < plen then
      greedyExtend ws (c ++ normalize_text w.text) (acc ++ [w]) plen
    else (c, acc)

/-- What one iteration of the `for i in range(len(ocr_words))` loop emits:
a single-word span on an exact normalized match, otherwise a multi-word
span when the greedy concatenation equals the pattern and consumed more
than one word. -/
def spansAt (w : Word) (ws : List Word) (pn : List Char) : List Emit :=
  if normalize_text w.text = pn then [Emit.single w]
  else if (greedyExtend ws (normalize_text w.text) [w] pn.length).1 = pn
      ∧ 1 < (greedyExtend ws (normalize_text w.text) [w] pn.length).2.length then
    [Emit.multi (greedyExtend ws (normalize_text w.text) [w] pn.length).2]
  else []

/-- Tier 1 and tier 2 spans over all start positions, in ascending order. -/
def tier12Spans : List Word → List Char → List Emit
  | [], _ => []
  | w :: ws, pn => spansAt w ws pn ++ tier12Spans ws pn

/-- `all_ocr_normalized`: the concatenation of all words' normalized texts. -/
def catNorm (words : List Word) : List Char :=
  (words.map (fun w => normalize_text w.text)).flatten

/-- Python `str.find`: the index of the first occurrence of `pat`, if any. -/
def firstOccur : List Char → List Char → Option Nat
  | [], pat => if pat.isPrefixOf ([] : List Char) then some 0 else none
  | c :: t, pat =>
    if pat.isPrefixOf (c :: t) then some 0
    else (firstOccur t pat).map (fun n => n + 1)

/-- The loop collecting `words_to_redact`: walk the words with a running
character position, keeping those whose normalized-text range is not
disjoint from `[start, stop)`. -/
def overlapWords : List Word → Nat → Nat → Nat → List Word
  | [], _, _, _ => []
  | w :: ws, pos, start, stop =>
    if pos + normLen w ≤ start ∨ stop ≤ pos then
      overlapWords ws (pos + normLen w) start stop
    else w :: overlapWords ws (pos + normLen w) start stop

/-- The substring-fallback stage: if the normalized pattern occurs in
`all_ocr_normalized`, emit one span of the words overlapping the first
occurrence (when that set is nonempty). -/
def fallbackSpans (words : List Word) (pn : List Char) : List Emit :=
  match firstOccur (catNorm words) pn with
  | none => []
  | some start =>
    if overlapWords words 0 start (start + pn.length) = [] then []
    else [Emit.fallback (overlapWords words 0 start (start + pn.length))]

/-- All spans one pattern produces on a word list: the tier-1/2 scan
followed by the substring fallback, as in the source. -/
def patternSpans (words : List Word) (pn : List Char) : List Emit :=
  tier12Spans words pn ++ fallbackSpans words pn

/-- Region Geometry applied to one span. -/
def regionOf (s : ℚ) : Emit → Region
  | Emit.single w => rectSingle w s
  | Emit.multi wl => rectMulti wl s
  | Emit.fallback wl => rectMulti wl s

/-- All regions one pattern produces (already normalized pattern text). -/
def patternRegions (words : List Word) (pn : List Char) (s : ℚ) : List Region :=
  (patternSpans words pn).map (regionOf s)

/-- All OCR-path regions over the pattern list, in source order. -/
def allRegions (patterns : List (List Char)) (words : List Word) (s : ℚ) : List Region :=
  (patterns.map (fun p => patternRegions words (normalize_text p) s)).flatten

/-- The digital-layer trim: if the rect's height exceeds 3 units, move the
top edge down by 2 and the bottom edge up by 1; otherwise leave it alone. -/
def trimRect (r : QRect) : QRect :=
  if 3 < r.y1 - r.y0 then ⟨r.x0, r.y0 + 2, r.x1, r.y1 - 1⟩ else r

/-- One observable side effect of processing a page. -/
inductive Effect where
  | redactAnnotQ (r : QRect)
  | redactAnnot (r : Region)
  | queueRect (r : Region)
  | applyRedactions
  | watermark (t : List Char)
deriving DecidableEq

/-- The per-page effect trace of `process_file`: the digital search stage
(PDF only), the OCR matching stage (annotations on PDF, queued rectangles
otherwise), `apply_redactions` (PDF only), and the watermark (PDF only,
nonempty text only).  `search` is the text-layer collaborator and
`results` the OCR collaborator's output. -/
def pageEffects (isPdf : Bool) (search : List Char → List QRect)
    (patterns : List (List Char)) (results : List RawResult)
    (wm : List Char) : List Effect :=
  let scale : ℚ := if isPdf then 72 / 300 else 1
  let words := build_ocr_words results
  (if isPdf && !patterns.isEmpty then
    ((patterns.map (fun p => (search p).map trimRect)).flatten).map Effect.redactAnnotQ
  else [])
  ++ (if !patterns.isEmpty then
    (allRegions patterns words scale).map
      (fun r => if isPdf then Effect.redactAnnot r else Effect.queueRect r)
  else [])
  ++ (if isPdf then [Effect.applyRedactions] else [])
  ++ (if isPdf && !wm.isEmpty then [Effect.watermark wm] else [])

/-- An RGB color; the redaction fill is opaque black. -/
abbrev Color := ℕ × ℕ × ℕ

/-- The fill color `(0, 0, 0)`. -/
def black : Color := (0, 0, 0)

/-- Membership of a pixel in a drawn rectangle (PIL fills both borders). -/
def inRegion (p : ℤ × ℤ) (r : Region) : Bool :=
  decide (r.x0 ≤ p.1) && decide (p.1 ≤ r.x1) && decide (r.y0 ≤ p.2) && decide (p.2 ≤ r.y1)

/-- `ImageDraw.rectangle(rect, fill=(0,0,0))` on an abstract image. -/
def drawRect (img : ℤ × ℤ → Color) (r : Region) : ℤ × ℤ → Color :=
  fun p => if inRegion p r then black else img p

/-- Draw every queued rectangle, in order. -/
def applyRedactionsImg (img : ℤ × ℤ → Color) (rs : List Region) : ℤ × ℤ → Color :=
  rs.foldl drawRect img

/-- The rectangles queued for PIL drawing (`image_redactions`). -/
def queuedRects (es : List Effect) : List Region :=
  es.filterMap (fun e => match e with | Effect.queueRect r => some r | _ => none)

/-- All integer-truncated rectangles produced by the OCR stage, on either
output path. -/
def intRects (es : List Effect) : List Region :=
  es.filterMap (fun e =>
    match e with
    | Effect.redactAnnot r => some r
    | Effect.queueRect r => some r
    | _ => none)

/-- The non-PDF output image: the rendered input page with every queued
rectangle filled black. -/
def outputImage (img : ℤ × ℤ → Color) (search : List Char → List QRect)
    (patterns : List (List Char)) (results : List RawResult)
    (wm : List Char) : ℤ × ℤ → Color :=
  applyRedactionsImg img (queuedRects (pageEffects false search patterns results wm))

/-- Whether a trace contains a watermark effect. -/
def hasWatermark (es : List Effect) : Bool :=
  es.any (fun e => match e with | Effect.watermark _ => true | _ => false)

/-- Number of positions at which `pat` occurs as a substring of `hay`. -/
def countOccur (hay pat : List Char) : ℕ :=
  ((List.range (hay.length + 1)).filter (fun k => pat.isPrefixOf (hay.drop k))).length

/-- Character offsets at which each word's normalized text starts inside
`catNorm` (one extra final entry: the total length). -/
def offsetsOf (words : List Word) : List Nat :=
  List.scanl (fun a w => a + normLen w) 0 words

/-- Spec-side description of the fallback span: the words whose normalized
character range `[o, o + normLen)` overlaps the matched range `[start, stop)`. -/
def overlapSpec (words : List Word) (start stop : Nat) : List Word :=
  ((words.zip (offsetsOf words)).filter
    (fun pr => decide (pr.2 < stop) && decide (start < pr.2 + normLen pr.1))).map Prod.fst

/-- Recognizer of tier-2 spans. -/
def isMultiSpan : Emit → Bool
  | Emit.multi _ => true
  | _ => false

/-! ### Helper lemmas -/

theorem truncQ_mono {q r : ℚ} (h : q ≤ r) : truncQ q ≤ truncQ r := by
  unfold truncQ
  by_cases hq : q < 0 <;> by_cases hr : r < 0 <;> simp only [hq, hr, if_pos, if_neg, if_true, if_false]
  · exact Int.ceil_le_ceil h
  · have h1 : ⌈q⌉ ≤ 0 := Int.ceil_le.mpr (by exact_mod_cast le_of_lt hq)
    have h2 : (0 : ℤ) ≤ ⌊r⌋ := Int.floor_nonneg.mpr (not_lt.mp hr)
    omega
  · exact absurd (lt_of_le_of_lt h hr) hq
  · exact Int.floor_le_floor h

theorem foldl_min_le_init (f : Word → ℚ) :
    ∀ (l : List Word) (a : ℚ), l.foldl (fun x v => min x (f v)) a ≤ a := by
  intro l
  induction l with
  | nil => intro a; simp
  | cons w ws ih =>
    intro a
    exact le_trans (ih (min a (f w))) (min_le_left _ _)

theorem foldl_min_le_mem (f : Word → ℚ) :
    ∀ (l : List Word) (a : ℚ) (w : Word), w ∈ l → l.foldl (fun x v => min x (f v)) a ≤ f w := by
  intro l
  induction l with
  | nil => intro a w hw; cases hw
  | cons u us ih =>
    intro a w hw
    rcases List.mem_cons.mp hw with h | h
    · subst h
      exact le_trans (foldl_min_le_init f us (min a (f w))) (min_le_right _ _)
    · exact ih (min a (f u)) w h

theorem foldl_min_attained (f : Word → ℚ) :
    ∀ (l : List Word) (a : ℚ),
      l.foldl (fun x v => min x (f v)) a = a ∨ ∃ w ∈ l, l.foldl (fun x v => min x (f v)) a = f w := by
  intro l
  induction l with
  | nil => intro a; left; rfl
  | cons u us ih =>
    intro a
    rcases ih (min a (f u)) with h | ⟨w, hw, h⟩
    · rcases min_choice a (f u) with hm | hm
      · left; simp only [List.foldl_cons]; rw [h, hm]
      · right; exact ⟨u, List.mem_cons_self u us, by simp only [List.foldl_cons]; rw [h, hm]⟩
    · right; exact ⟨w, List.mem_cons_of_mem u hw, by simpa using h⟩

theorem foldMin_le (f : Word → ℚ) {wl : List Word} {w : Word} (h : w ∈ wl) :
    foldMin f wl ≤ f w := by
  cases wl with
  | nil => cases h
  | cons u us =>
    rcases List.mem_cons.mp h with h' | h'
    · subst h'; exact foldl_min_le_init f us (f w)
    · exact foldl_min_le_mem f us (f u) w h'

theorem foldMin_attained (f : Word → ℚ) {wl : List Word} (h : wl ≠ []) :
    ∃ w ∈ wl, foldMin f wl = f w := by
  cases wl with
  | nil => exact absurd rfl h
  | cons u us =>
    rcases foldl_min_attained f us (f u) with h' | ⟨w, hw, h'⟩
    · exact ⟨u, List.mem_cons_self u us, h'⟩
    · exact ⟨w, List.mem_cons_of_mem u hw, h'⟩

theorem foldl_max_le_init (f : Word → ℚ) :
    ∀ (l : List Word) (a : ℚ), a ≤ l.foldl (fun x v => max x (f v)) a := by
  intro l
  induction l with
  | nil => intro a; simp
  | cons w ws ih =>
    intro a
    exact le_trans (le_max_left _ _) (ih (max a (f w)))

theorem foldl_max_le_mem (f : Word → ℚ) :
    ∀ (l : List Word) (a : ℚ) (w : Word), w ∈ l → f w ≤ l.foldl (fun x v => max x (f v)) a := by
  intro l
  induction l with
  | nil => intro a w hw; cases hw
  | cons u us ih =>
    intro a w hw
    rcases List.mem_cons.mp hw with h | h
    · subst h
      exact le_trans (le_max_right _ _) (foldl_max_le_init f us (max a (f w)))
    · exact ih (max a (f u)) w h

theorem foldl_max_attained (f : Word → ℚ) :
    ∀ (l : List Word) (a : ℚ),
      l.foldl (fun x v => max x (f v)) a = a ∨ ∃ w ∈ l, l.foldl (fun x v => max x (f v)) a = f w := by
  intro l
  induction l with
  | nil => intro a; left; rfl
  | cons u us ih =>
    intro a
    rcases ih (max a (f u)) with h | ⟨w, hw, h⟩
    · rcases max_choice a (f u) with hm | hm
      · left; simp only [List.foldl_cons]; rw [h, hm]
      · right; exact ⟨u, List.mem_cons_self u us, by simp only [List.foldl_cons]; rw [h, hm]⟩
    · right; exact ⟨w, List.mem_cons_of_mem u hw, by simpa using h⟩

theorem le_foldMax (f : Word → ℚ) {wl : List Word} {w : Word} (h : w ∈ wl) :
    f w ≤ foldMax f wl := by
  cases wl with
  | nil => cases h
  | cons u us =>
    rcases List.mem_cons.mp h with h' | h'
    · subst h'; exact foldl_max_le_init f us (f w)
    · exact foldl_max_le_mem f us (f u) w h'

theorem foldMax_attained (f : Word → ℚ) {wl : List Word} (h : wl ≠ []) :
    ∃ w ∈ wl, foldMax f wl = f w := by
  cases wl with
  | nil => exact absurd rfl h
  | cons u us =>
    rcases foldl_max_attained f us (f u) with h' | ⟨w, hw, h'⟩
    · exact ⟨u, List.mem_cons_self u us, h'⟩
    · exact ⟨w, List.mem_cons_of_mem u hw, h'⟩

theorem greedyExtend_stop (ws : List Word) (c : List Char) (acc : List Word) (plen : Nat)
    (h : ¬ c.length < plen) : greedyExtend ws c acc plen = (c, acc) := by
  cases ws with
  | nil => rfl
  | cons w t => simp [greedyExtend, h]

theorem isPrefixOf_length : ∀ (p l : List Char), p.isPrefixOf l = true → p.length ≤ l.length := by
  intro p
  induction p with
  | nil => intro l _; simp
  | cons c cs ih =>
    intro l h
    cases l with
    | nil => simp [List.isPrefixOf] at h
    | cons d ds =>
      simp only [List.isPrefixOf, Bool.and_eq_true] at h
      have := ih ds h.2
      simp only [List.length_cons]
      omega

theorem firstOccur_spec :
    ∀ (hay pat : List Char) (i : Nat), firstOccur hay pat = some i →
      pat.isPrefixOf (hay.drop i) = true ∧ ∀ j, j < i → pat.isPrefixOf (hay.drop j) = false := by
  intro hay
  induction hay with
  | nil =>
    intro pat i h
    unfold firstOccur at h
    by_cases hp : pat.isPrefixOf ([] : List Char) = true
    · simp only [hp, if_true, Option.some.injEq] at h
      subst h
      exact ⟨hp, fun j hj => absurd hj (Nat.not_lt_zero j)⟩
    · simp only [hp] at h
      simp at h
  | cons c t ih =>
    intro pat i h
    unfold firstOccur at h
    by_cases hp : pat.isPrefixOf (c :: t) = true
    · simp only [hp, if_true, Option.some.injEq] at h
      subst h
      exact ⟨by simpa using hp, fun j hj => absurd hj (Nat.not_lt_zero j)⟩
    · simp only [hp, if_false] at h
      rcases Option.map_eq_some'.mp h with ⟨i', hi', hii⟩
      subst hii
      rcases ih pat i' hi' with ⟨h1, h2⟩
      refine ⟨by simpa using h1, ?_⟩
      intro j hj
      cases j with
      | zero => simpa using Bool.eq_false_iff.mpr hp
      | succ j' =>
        have : j' < i' := by omega
        simpa using h2 j' this

theorem overlapWords_eq_spec (start stop : Nat) :
    ∀ (ws : List Word) (base : Nat),
      overlapWords ws base start stop =
        ((ws.zip (List.scanl (fun a w => a + normLen w) base ws)).filter
          (fun pr => decide (pr.2 < stop) && decide (start < pr.2 + normLen pr.1))).map Prod.fst := by
  intro ws
  induction ws with
  | nil => intro base; simp [overlapWords]
  | cons w t ih =>
    intro base
    have hscanl : List.scanl (fun a w => a + normLen w) base (w :: t) =
        base :: List.scanl (fun a w => a + normLen w) (base + normLen w) t := by
      simp [List.scanl]
    rw [hscanl, List.zip_cons_cons, List.filter_cons]
    by_cases hc : base + normLen w ≤ start ∨ stop ≤ base
    · have hb : (decide ((w, base).2 < stop) && decide (start < (w, base).2 + normLen (w, base).1)) = false := by
        simp only [Bool.and_eq_false_iff, decide_eq_false_iff_not, not_lt]
        omega
      rw [hb]
      simp only [overlapWords, if_pos hc, Bool.false_eq_true, if_false]
      exact ih (base + normLen w)
    · have hb : (decide ((w, base).2 < stop) && decide (start < (w, base).2 + normLen (w, base).1)) = true := by
        simp only [Bool.and_eq_true, decide_eq_true_eq]
        omega
      rw [hb]
      simp only [overlapWords, if_neg hc, if_true, List.map_cons]
      rw [ih (base + normLen w)]

theorem overlapWords_ne_nil :
    ∀ (ws : List Word) (base start stop : Nat), base ≤ start →
      start < base + (ws.map normLen).sum → start < stop →
      overlapWords ws base start stop ≠ [] := by
  intro ws
  induction ws with
  | nil =>
    intro base start stop h1 h2 h3
    simp only [List.map_nil, List.sum_nil] at h2
    omega
  | cons w t ih =>
    intro base start stop h1 h2 h3
    by_cases hw : start < base + normLen w
    · have hc : ¬(base + normLen w ≤ start ∨ stop ≤ base) := by omega
      simp [overlapWords, hc]
    · have hc : base + normLen w ≤ start ∨ stop ≤ base := Or.inl (by omega)
      simp only [overlapWords, if_pos hc]
      refine ih (base + normLen w) start stop (by omega) ?_ h3
      simp only [List.map_cons, List.sum_cons] at h2
      omega

theorem placeTokens_get? :
    ∀ (ts : List (List Char)) (cw pos tp h : ℚ) (k : Nat) (t : List Char),
      ts.get? k = some t →
      (placeTokens ts cw pos tp h).get? k =
        some ⟨t, pos + cw * (((ts.take k).map (fun u => (u.length : ℚ) + 1)).sum),
              tp, (t.length : ℚ) * cw, h⟩ := by
  intro ts
  induction ts with
  | nil => intro cw pos tp h k t hk; simp [List.get?] at hk
  | cons u us ih =>
    intro cw pos tp h k t hk
    cases k with
    | zero =>
      simp only [List.get?] at hk
      injection hk with hk
      subst hk
      simp only [placeTokens, List.get?, List.take_zero, List.map_nil, List.sum_nil,
        mul_zero, add_zero, Option.some.injEq]
    | succ j =>
      simp only [List.get?] at hk
      have hrec := ih cw (pos + (u.length : ℚ) * cw + cw) tp h j t hk
      simp only [placeTokens, List.get?]
      rw [hrec]
      simp only [Option.some.injEq, Word.mk.injEq, List.take_succ_cons, List.map_cons,
        List.sum_cons, true_and, and_true]
      ring

theorem placeTokens_length :
    ∀ (ts : List (List Char)) (cw pos tp h : ℚ),
      (placeTokens ts cw pos tp h).length = ts.length := by
  intro ts
  induction ts with
  | nil => intro cw pos tp h; rfl
  | cons u us ih =>
    intro cw pos tp h
    simp [placeTokens, ih]

theorem applyRedactionsImg_pixel :
    ∀ (rs : List Region) (img : ℤ × ℤ → Color) (p : ℤ × ℤ),
      applyRedactionsImg img rs p =
        if rs.any (fun r => inRegion p r) then black else img p := by
  intro rs
  induction rs with
  | nil => intro img p; simp [applyRedactionsImg]
  | cons r t ih =>
    intro img p
    have step : applyRedactionsImg img (r :: t) = applyRedactionsImg (drawRect img r) t := rfl
    rw [step, ih (drawRect img r) p]
    by_cases h : inRegion p r = true
    · simp [List.any_cons, h, drawRect]
    · simp [List.any_cons, h, drawRect]

theorem fragmentsOfResult_dropped (r : RawResult)
    (h : r.prob ≤ 1/20 ∨ pyStrip r.text = []) : fragmentsOfResult r = [] := by
  unfold fragmentsOfResult
  rw [if_neg]
  rintro ⟨h1, h2⟩
  rcases h with h | h
  · exact absurd h1 (not_lt.mpr h)
  · exact h2 h

theorem mem_tier12_single :
    ∀ (words : List Word) (pn : List Char) (i : Nat) (hi : i < words.length),
      normalize_text (words.get ⟨i, hi⟩).text = pn →
      Emit.single (words.get ⟨i, hi⟩) ∈ tier12Spans words pn := by
  intro words
  induction words with
  | nil => intro pn i hi; simp at hi
  | cons w t ih =>
    intro pn i hi h
    cases i with
    | zero =>
      simp only [List.get] at h ⊢
      simp only [tier12Spans, spansAt, h, if_pos]
      exact List.mem_append_left _ (List.mem_singleton.mpr rfl)
    | succ j =>
      simp only [List.get] at h ⊢
      exact List.mem_append_right _ (ih pn j (by simpa using hi) h)

theorem mem_tier12_multi :
    ∀ (words : List Word) (pn : List Char) (i : Nat) (hi : i < words.length),
      normalize_text (words.get ⟨i, hi⟩).text ≠ pn →
      (greedyExtend (words.drop (i + 1)) (normalize_text (words.get ⟨i, hi⟩).text)
        [words.get ⟨i, hi⟩] pn.length).1 = pn →
      1 < (greedyExtend (words.drop (i + 1)) (normalize_text (words.get ⟨i, hi⟩).text)
        [words.get ⟨i, hi⟩] pn.length).2.length →
      Emit.multi ((greedyExtend (words.drop (i + 1)) (normalize_text (words.get ⟨i, hi⟩).text)
        [words.get ⟨i, hi⟩] pn.length).2) ∈ tier12Spans words pn := by
  intro words
  induction words with
  | nil => intro pn i hi; simp at hi
  | cons w t ih =>
    intro pn i hi hne hg hlen
    cases i with
    | zero =>
      simp only [List.get, List.drop_succ_cons, List.drop_zero] at hne hg hlen ⊢
      refine List.mem_append_left _ ?_
      simp only [spansAt, if_neg hne]
      rw [if_pos ⟨hg, hlen⟩]
      exact List.mem_singleton.mpr rfl
    | succ j =>
      simp only [List.get, List.drop_succ_cons] at hne hg hlen ⊢
      exact List.mem_append_right _ (ih pn j (by simpa using hi) hne hg hlen)

theorem queuedRects_append (a b : List Effect) :
    queuedRects (a ++ b) = queuedRects a ++ queuedRects b :=
  List.filterMap_append a b _

theorem intRects_append (a b : List Effect) :
    intRects (a ++ b) = intRects a ++ intRects b :=
  List.filterMap_append a b _

theorem queuedRects_map_queue (l : List Region) :
    queuedRects (l.map (fun r => Effect.queueRect r)) = l := by
  induction l with
  | nil => rfl
  | cons r t ih => exact congrArg (fun x => r :: x) ih

theorem queuedRects_map_annot (l : List Region) :
    queuedRects (l.map (fun r => Effect.redactAnnot r)) = [] := by
  induction l with
  | nil => rfl
  | cons r t ih => exact ih

theorem queuedRects_map_annotQ (l : List QRect) :
    queuedRects (l.map Effect.redactAnnotQ) = [] := by
  induction l with
  | nil => rfl
  | cons r t ih => exact ih

theorem intRects_map_queue (l : List Region) :
    intRects (l.map (fun r => Effect.queueRect r)) = l := by
  induction l with
  | nil => rfl
  | cons r t ih => exact congrArg (fun x => r :: x) ih

theorem intRects_map_annot (l : List Region) :
    intRects (l.map (fun r => Effect.redactAnnot r)) = l := by
  induction l with
  | nil => rfl
  | cons r t ih => exact congrArg (fun x => r :: x) ih

theorem intRects_map_annotQ (l : List QRect) :
    intRects (l.map Effect.redactAnnotQ) = [] := by
  induction l with
  | nil => rfl
  | cons r t ih => exact ih

theorem hasWatermark_append (a b : List Effect) :
    hasWatermark (a ++ b) = (hasWatermark a || hasWatermark b) :=
  List.any_append

theorem hasWatermark_map_queue (l : List Region) :
    hasWatermark (l.map (fun r => Effect.queueRect r)) = false := by
  induction l with
  | nil => rfl
  | cons r t ih =>
    simp only [List.map_cons, hasWatermark, List.any_cons, Bool.false_or] at ih ⊢
    exact ih

/-- The body of `pageEffects` written as four explicit blocks. -/
theorem pageEffects_def (isPdf : Bool) (search : List Char → List QRect)
    (patterns : List (List Char)) (results : List RawResult) (wm : List Char) :
    pageEffects isPdf search patterns results wm =
      (if isPdf && !patterns.isEmpty then
        ((patterns.map (fun p => (search p).map trimRect)).flatten).map Effect.redactAnnotQ
      else [])
      ++ (if !patterns.isEmpty then
        (allRegions patterns (build_ocr_words results)
            (if isPdf then (72 : ℚ) / 300 else 1)).map
          (fun r => if isPdf then Effect.redactAnnot r else Effect.queueRect r)
      else [])
      ++ (if isPdf then [Effect.applyRedactions] else [])
      ++ (if isPdf && !wm.isEmpty then [Effect.watermark wm] else []) := rfl

theorem queuedRects_nil : queuedRects [] = [] := rfl

theorem intRects_nil : intRects [] = [] := rfl

theorem queuedRects_applyRedactions : queuedRects [Effect.applyRedactions] = [] := rfl

theorem intRects_applyRedactions : intRects [Effect.applyRedactions] = [] := rfl

theorem queuedRects_watermark (wm : List Char) : queuedRects [Effect.watermark wm] = [] := rfl

theorem intRects_watermark (wm : List Char) : intRects [Effect.watermark wm] = [] := rfl

theorem hasWatermark_nil : hasWatermark [] = false := rfl

theorem hasWatermark_applyRedactions : hasWatermark [Effect.applyRedactions] = false := rfl

theorem queuedRects_pageEffects_false (search : List Char → List QRect)
    (patterns : List (List Char)) (results : List RawResult) (wm : List Char) :
    queuedRects (pageEffects false search patterns results wm)
      = allRegions patterns (build_ocr_words results) 1 := by
  rw [pageEffects_def]
  rw [queuedRects_append, queuedRects_append, queuedRects_append]
  by_cases hp : patterns.isEmpty = true
  · have hpe : patterns = [] := List.isEmpty_iff.mp hp
    subst hpe
    simp [allRegions, queuedRects]
  · have hp' : patterns.isEmpty = false := Bool.eq_false_iff.mpr hp
    simp only [hp', Bool.false_and, Bool.not_false, Bool.false_eq_true, if_false,
      eq_self_iff_true, if_true]
    rw [queuedRects_nil, queuedRects_map_queue]
    simp

theorem intRects_pageEffects (isPdf : Bool) (search : List Char → List QRect)
    (patterns : List (List Char)) (results : List RawResult) (wm : List Char) :
    intRects (pageEffects isPdf search patterns results wm)
      = allRegions patterns (build_ocr_words results) (if isPdf then (72 : ℚ) / 300 else 1) := by
  rw [pageEffects_def]
  rw [intRects_append, intRects_append, intRects_append]
  by_cases hp : patterns.isEmpty = true
  · have hpe : patterns = [] := List.isEmpty_iff.mp hp
    subst hpe
    cases isPdf <;> by_cases hw : wm.isEmpty = true <;> simp [allRegions, hw, intRects]
  · have hp' : patterns.isEmpty = false := Bool.eq_false_iff.mpr hp
    cases isPdf
    · simp only [hp', Bool.false_and, Bool.not_false, Bool.false_eq_true, if_false,
        eq_self_iff_true, if_true]
      rw [intRects_nil, intRects_map_queue]
      simp
    · simp only [hp', Bool.true_and, Bool.not_false, Bool.and_self, eq_self_iff_true, if_true]
      rw [intRects_map_annotQ, intRects_map_annot, intRects_applyRedactions]
      by_cases hw : wm.isEmpty = true <;>
        simp [hw, intRects_watermark, intRects_nil, intRects]

theorem hasWatermark_pageEffects_false (search : List Char → List QRect)
    (patterns : List (List Char)) (results : List RawResult) (wm : List Char) :
    hasWatermark (pageEffects false search patterns results wm) = false := by
  rw [pageEffects_def]
  rw [hasWatermark_append, hasWatermark_append, hasWatermark_append]
  by_cases hp : patterns.isEmpty = true
  · have hpe : patterns = [] := List.isEmpty_iff.mp hp
    subst hpe
    simp [hasWatermark]
  · have hp' : patterns.isEmpty = false := Bool.eq_false_iff.mpr hp
    simp only [hp', Bool.false_and, Bool.not_false, Bool.false_eq_true, if_false,
      eq_self_iff_true, if_true]
    rw [hasWatermark_nil, hasWatermark_map_queue]
    simp

theorem spansAt_multi_char (w : Word) (ws : List Word) (pn : List Char) :
    ((spansAt w ws pn).any isMultiSpan = true ↔
      ((greedyExtend ws (normalize_text w.text) [w] pn.length).1 = pn
        ∧ 1 < (greedyExtend ws (normalize_text w.text) [w] pn.length).2.length))
    ∧ ∀ wl, Emit.multi wl ∈ spansAt w ws pn →
        wl = (greedyExtend ws (normalize_text w.text) [w] pn.length).2 := by
  unfold spansAt
  by_cases h : normalize_text w.text = pn
  · rw [if_pos h]
    have hstop : greedyExtend ws (normalize_text w.text) [w] pn.length
        = (normalize_text w.text, [w]) := by
      apply greedyExtend_stop
      rw [h]
      exact lt_irrefl _
    constructor
    · rw [hstop]
      simp [isMultiSpan]
    · intro wl hwl
      simp [isMultiSpan] at hwl
  · rw [if_neg h]
    by_cases hc : (greedyExtend ws (normalize_text w.text) [w] pn.length).1 = pn
        ∧ 1 < (greedyExtend ws (normalize_text w.text) [w] pn.length).2.length
    · rw [if_pos hc]
      constructor
      · simp [isMultiSpan, hc]
      · intro wl hwl
        simp at hwl
        rw [hwl]
    · rw [if_neg hc]
      constructor
      · simp [hc]
      · intro wl hwl
        simp at hwl

/-! ### Claim theorems -/

/-- C8: for every rectangle returned by the exact text-layer search, if its
height exceeds 3 units the redacted rectangle has its top edge moved down
by 2 and its bottom edge moved up by 1 (height shrunk by exactly 3 units,
width unchanged), and otherwise the rectangle is redacted unchanged. -/
theorem digital_trim_spec (r : QRect) :
    (trimRect r).x0 = r.x0 ∧ (trimRect r).x1 = r.x1
    ∧ (3 < r.y1 - r.y0 →
        (trimRect r).y0 = r.y0 + 2 ∧ (trimRect r).y1 = r.y1 - 1
        ∧ (trimRect r).y1 - (trimRect r).y0 = (r.y1 - r.y0) - 3)
    ∧ (¬ 3 < r.y1 - r.y0 → trimRect r = r) := by
  unfold trimRect
  by_cases h : 3 < r.y1 - r.y0
  · rw [if_pos h]
    exact ⟨rfl, rfl, fun _ => ⟨rfl, rfl, by ring⟩, fun hn => absurd h hn⟩
  · rw [if_neg h]
    exact ⟨rfl, rfl, fun hc => absurd hc h, fun _ => rfl⟩

/-- Witness for `digital_trim_spec`: a tall rect loses exactly 3 units of
height, a short rect is unchanged. -/
theorem digital_trim_spec_witness :
    (trimRect ⟨0, 0, 10, 5⟩).y1 - (trimRect ⟨0, 0, 10, 5⟩).y0 = ((5 : ℚ) - 0) - 3
    ∧ trimRect ⟨0, 0, 10, 2⟩ = ⟨0, 0, 10, 2⟩ := by
  constructor
  · exact ((digital_trim_spec ⟨0, 0, 10, 5⟩).2.2.1 (by norm_num)).2.2
  · exact (digital_trim_spec ⟨0, 0, 10, 2⟩).2.2.2 (by norm_num)

/-- C6: every raw recognition result with confidence at most 0.05 or empty
stripped text is dropped by the fragment builder, so it contributes nothing
to the fragment sequence, and hence nothing to any span or region. -/
theorem confidence_filter_spec (pre post : List RawResult) (r : RawResult)
    (h : r.prob ≤ 1/20 ∨ pyStrip r.text = []) :
    build_ocr_words (pre ++ r :: post) = build_ocr_words (pre ++ post)
    ∧ ∀ pn s, patternRegions (build_ocr_words (pre ++ r :: post)) pn s
        = patternRegions (build_ocr_words (pre ++ post)) pn s := by
  have hb : build_ocr_words (pre ++ r :: post) = build_ocr_words (pre ++ post) := by
    unfold build_ocr_words
    rw [List.map_append, List.map_append, List.map_cons, List.flatten_append,
      List.flatten_append, List.flatten_cons, fragmentsOfResult_dropped r h,
      List.nil_append]
  exact ⟨hb, fun pn s => by rw [hb]⟩

/-- Witness for `confidence_filter_spec`: a result with confidence 0.01
yields no fragments at all. -/
theorem confidence_filter_witness :
    build_ocr_words [⟨(0, 0), (10, 0), (10, 5), (0, 5), "ab".toList, 1/100⟩]
      = build_ocr_words [] :=
  (confidence_filter_spec [] [] ⟨(0, 0), (10, 0), (10, 5), (0, 5), "ab".toList, 1/100⟩
    (Or.inl (by norm_num))).1

/-- C9: an empty pattern list is a no-op: the OCR stage yields zero
regions, the page trace contains no redaction annotation and no queued
rectangle, and the non-PDF output image equals the input image. -/
theorem no_pattern_noop (isPdf : Bool) (search : List Char → List QRect)
    (results : List RawResult) (wm : List Char) (img : ℤ × ℤ → Color) (p : ℤ × ℤ)
    (words : List Word) (s : ℚ) :
    allRegions [] words s = []
    ∧ pageEffects isPdf search [] results wm =
        (if isPdf then [Effect.applyRedactions] else [])
        ++ (if isPdf && !wm.isEmpty then [Effect.watermark wm] else [])
    ∧ outputImage img search [] results wm p = img p := by
  refine ⟨rfl, ?_, ?_⟩
  · rw [pageEffects_def]
    simp
  · unfold outputImage
    rw [queuedRects_pageEffects_false]
    rfl

/-- C10: on the non-PDF (image) path the watermark step never runs, even
for nonempty watermark text, and the output image differs from the
rendered input page exactly by the opaque black redaction rectangles. -/
theorem image_no_watermark (search : List Char → List QRect) (patterns : List (List Char))
    (results : List RawResult) (wm : List Char) (img : ℤ × ℤ → Color) (p : ℤ × ℤ) :
    hasWatermark (pageEffects false search patterns results wm) = false
    ∧ queuedRects (pageEffects false search patterns results wm)
        = allRegions patterns (build_ocr_words results) 1
    ∧ outputImage img search patterns results wm p =
        (if (allRegions patterns (build_ocr_words results) 1).any (fun r => inRegion p r)
         then black else img p) := by
  refine ⟨hasWatermark_pageEffects_false search patterns results wm,
    queuedRects_pageEffects_false search patterns results wm, ?_⟩
  unfold outputImage
  rw [queuedRects_pageEffects_false]
  exact applyRedactionsImg_pixel _ img p

/-- C7: a raw recognition result with more than one whitespace-separated
token is split into one fragment per token, in left-to-right order starting
at the span's left edge; each fragment's width is the token's character
count times (total width / total character count of the stripped span,
spaces included); each subsequent fragment starts one average character
width after the previous one's right edge; top and height are kept. -/
theorem multi_token_split_spec (r : RawResult)
    (hprob : 1/20 < r.prob)
    (htok : 1 < (pySplit (pyStrip r.text)).length) :
    (fragmentsOfResult r).length = (pySplit (pyStrip r.text)).length
    ∧ ∀ k t, (pySplit (pyStrip r.text)).get? k = some t →
        (fragmentsOfResult r).get? k =
          some ⟨t,
            rawLeft r + (rawWidth r / (((pyStrip r.text).length : ℚ))) *
              ((((pySplit (pyStrip r.text)).take k).map (fun u => (u.length : ℚ) + 1)).sum),
            rawTop r,
            (t.length : ℚ) * (rawWidth r / (((pyStrip r.text).length : ℚ))),
            rawHeight r⟩ := by
  have hne : pyStrip r.text ≠ [] := by
    intro h0
    rw [h0] at htok
    simp [pySplit, splitAux] at htok
  have hfr : fragmentsOfResult r =
      placeTokens (pySplit (pyStrip r.text)) (rawWidth r / (((pyStrip r.text).length : ℚ)))
        (rawLeft r) (rawTop r) (rawHeight r) := by
    unfold fragmentsOfResult
    rw [if_pos ⟨hprob, hne⟩, if_pos htok]
  constructor
  · rw [hfr]
    exact placeTokens_length _ _ _ _ _
  · intro k t hk
    rw [hfr]
    have := placeTokens_get? (pySplit (pyStrip r.text))
      (rawWidth r / (((pyStrip r.text).length : ℚ))) (rawLeft r) (rawTop r) (rawHeight r) k t hk
    simpa using this

/-- Witness for `multi_token_split_spec`: the result `"ab cd"` over a
10-wide box splits into two fragments, the second placed at 6 with width 4. -/
theorem multi_token_split_witness :
    (fragmentsOfResult ⟨(0, 0), (10, 0), (10, 5), (0, 5), "ab cd".toList, 1/2⟩).get? 1
      = some ⟨"cd".toList, 6, 0, 4, 5⟩ := by
  have h := (multi_token_split_spec ⟨(0, 0), (10, 0), (10, 5), (0, 5), "ab cd".toList, 1/2⟩
    (by norm_num) (by decide)).2 1 ("cd".toList) (by decide)
  rw [h]
  have e1 : pyStrip ("ab cd".toList) = "ab cd".toList := by decide
  have e2 : pySplit ("ab cd".toList) = ["ab".toList, "cd".toList] := by decide
  rw [e1, e2]
  norm_num [rawLeft, rawTop, rawWidth, rawHeight, Word.mk.injEq]

/-- C5: at every starting index `i`, normalized texts of following words
are greedily concatenated until the length reaches the pattern's, and a
tier-2 span is emitted iff the concatenation equals the pattern exactly
with more than one word consumed; the emitted span's pre-scale box has
`x0` equal to the minimum left and `x1` at least every member's
`left + width`. -/
theorem consecutive_match_spec (words : List Word) (pn : List Char) (s : ℚ)
    (i : Nat) (hi : i < words.length) :
    (((spansAt (words.get ⟨i, hi⟩) (words.drop (i + 1)) pn).any isMultiSpan = true) ↔
      ((greedyExtend (words.drop (i + 1)) (normalize_text (words.get ⟨i, hi⟩).text)
          [words.get ⟨i, hi⟩] pn.length).1 = pn
        ∧ 1 < (greedyExtend (words.drop (i + 1)) (normalize_text (words.get ⟨i, hi⟩).text)
          [words.get ⟨i, hi⟩] pn.length).2.length))
    ∧ ∀ wl, Emit.multi wl ∈ spansAt (words.get ⟨i, hi⟩) (words.drop (i + 1)) pn →
        wl = (greedyExtend (words.drop (i + 1)) (normalize_text (words.get ⟨i, hi⟩).text)
            [words.get ⟨i, hi⟩] pn.length).2
        ∧ (∃ w0 ∈ wl, (aabbOf wl).x0 = w0.left)
        ∧ (∀ w' ∈ wl, (aabbOf wl).x0 ≤ w'.left ∧ w'.left + w'.width ≤ (aabbOf wl).x1)
        ∧ regionOf s (Emit.multi wl) = scaleTrunc (aabbOf wl) s := by
  refine ⟨(spansAt_multi_char _ _ _).1, ?_⟩
  intro wl hwl
  have hany : (spansAt (words.get ⟨i, hi⟩) (words.drop (i + 1)) pn).any isMultiSpan = true :=
    List.any_eq_true.mpr ⟨Emit.multi wl, hwl, rfl⟩
  have hcond := (spansAt_multi_char (words.get ⟨i, hi⟩) (words.drop (i + 1)) pn).1.mp hany
  have heq := (spansAt_multi_char (words.get ⟨i, hi⟩) (words.drop (i + 1)) pn).2 wl hwl
  have hne : wl ≠ [] := by
    rw [heq]
    intro h0
    rw [h0] at hcond
    simp at hcond
  refine ⟨heq, ?_, ?_, rfl⟩
  · exact foldMin_attained (fun w => w.left) hne
  · intro w' hw'
    exact ⟨foldMin_le (fun w => w.left) hw', le_foldMax (fun w => w.left + w.width) hw'⟩

/-- Witness for `consecutive_match_spec`: the spec's date example
`["01", "01", "1990"]` against pattern `"01 01 1990"`. -/
theorem consecutive_match_witness :
    Emit.multi [⟨"01".toList, 0, 0, 20, 10⟩, ⟨"01".toList, 25, 0, 20, 10⟩,
        ⟨"1990".toList, 50, 0, 40, 10⟩]
      ∈ spansAt (⟨"01".toList, 0, 0, 20, 10⟩ : Word)
        [⟨"01".toList, 25, 0, 20, 10⟩, ⟨"1990".toList, 50, 0, 40, 10⟩]
        (normalize_text "01 01 1990".toList)
    ∧ (aabbOf [⟨"01".toList, 0, 0, 20, 10⟩, ⟨"01".toList, 25, 0, 20, 10⟩,
        ⟨"1990".toList, 50, 0, 40, 10⟩]).x0 ≤ 0
    ∧ (50 : ℚ) + 40 ≤ (aabbOf [⟨"01".toList, 0, 0, 20, 10⟩, ⟨"01".toList, 25, 0, 20, 10⟩,
        ⟨"1990".toList, 50, 0, 40, 10⟩]).x1 := by
  have hmem : Emit.multi [⟨"01".toList, 0, 0, 20, 10⟩, ⟨"01".toList, 25, 0, 20, 10⟩,
        ⟨"1990".toList, 50, 0, 40, 10⟩]
      ∈ spansAt (⟨"01".toList, 0, 0, 20, 10⟩ : Word)
        [⟨"01".toList, 25, 0, 20, 10⟩, ⟨"1990".toList, 50, 0, 40, 10⟩]
        (normalize_text "01 01 1990".toList) := by decide
  have h := (consecutive_match_spec
      [⟨"01".toList, 0, 0, 20, 10⟩, ⟨"01".toList, 25, 0, 20, 10⟩, ⟨"1990".toList, 50, 0, 40, 10⟩]
      (normalize_text "01 01 1990".toList) 1 0 (by norm_num)).2 _ hmem
  exact ⟨hmem, (h.2.2.1 ⟨"01".toList, 0, 0, 20, 10⟩ (by decide)).1,
    (h.2.2.1 ⟨"1990".toList, 50, 0, 40, 10⟩ (by decide)).2⟩

/-- C4: whenever the normalized pattern occurs in `all_ocr_normalized`
(first occurrence at `start`), the fallback emits exactly one span made of
precisely the words whose normalized character range overlaps
`[start, start + len)`, and its region is the scaled, truncated bounding
box of those words. -/
theorem substring_fallback_spec (words : List Word) (pn : List Char) (s : ℚ) (start : Nat)
    (hne : pn ≠ []) (hfind : firstOccur (catNorm words) pn = some start) :
    overlapWords words 0 start (start + pn.length) ≠ []
    ∧ fallbackSpans words pn = [Emit.fallback (overlapWords words 0 start (start + pn.length))]
    ∧ overlapWords words 0 start (start + pn.length) = overlapSpec words start (start + pn.length)
    ∧ regionOf s (Emit.fallback (overlapWords words 0 start (start + pn.length)))
        = scaleTrunc (aabbOf (overlapWords words 0 start (start + pn.length))) s := by
  have hpre := (firstOccur_spec _ _ _ hfind).1
  have hlen := isPrefixOf_length _ _ hpre
  rw [List.length_drop] at hlen
  have hpn : 0 < pn.length := List.length_pos.mpr hne
  have hcat : start < (catNorm words).length := by omega
  have hsum : (words.map normLen).sum = (catNorm words).length := by
    unfold catNorm
    rw [List.length_flatten, List.map_map]
    rfl
  have h1 : overlapWords words 0 start (start + pn.length) ≠ [] := by
    apply overlapWords_ne_nil words 0 start (start + pn.length) (Nat.zero_le _)
    · omega
    · omega
  refine ⟨h1, ?_, ?_, rfl⟩
  · unfold fallbackSpans
    rw [hfind]
    exact if_neg h1
  · rw [overlapWords_eq_spec]
    rfl

/-- Witness for `substring_fallback_spec`: the spec's split-recognition
example `["Sch", "midt"]` with pattern `"Schmidt"`: the emitted span covers
both fragments. -/
theorem substring_fallback_witness :
    fallbackSpans [⟨"Sch".toList, 0, 0, 30, 10⟩, ⟨"midt".toList, 40, 0, 40, 10⟩]
        (normalize_text "Schmidt".toList)
      = [Emit.fallback [⟨"Sch".toList, 0, 0, 30, 10⟩, ⟨"midt".toList, 40, 0, 40, 10⟩]] := by
  have h := (substring_fallback_spec
      [⟨"Sch".toList, 0, 0, 30, 10⟩, ⟨"midt".toList, 40, 0, 40, 10⟩]
      (normalize_text "Schmidt".toList) 1 0 (by decide) (by decide)).2.1
  rw [h]
  decide

/-- C3 counterexample: with fragments `"xab"`, `"xab"` and pattern `"ab"`,
the pattern occurs twice in the concatenated normalized stream, but the
matcher emits exactly one span, covering only the fragment of the first
occurrence — not a region for every occurrence. -/
theorem all_matches_counterexample :
    countOccur (catNorm [⟨"xab".toList, 0, 0, 10, 10⟩, ⟨"xab".toList, 20, 0, 10, 10⟩])
        ("ab".toList) = 2
    ∧ (patternSpans [⟨"xab".toList, 0, 0, 10, 10⟩, ⟨"xab".toList, 20, 0, 10, 10⟩]
        ("ab".toList)).length = 1
    ∧ patternSpans [⟨"xab".toList, 0, 0, 10, 10⟩, ⟨"xab".toList, 20, 0, 10, 10⟩]
        ("ab".toList)
      = [Emit.fallback [⟨"xab".toList, 0, 0, 10, 10⟩]] := by decide

/-- C3 amended: tiers 1 and 2 are tried at every fragment start position
and every match there is emitted; but the stream-substring fallback emits
at most one span per pattern, and only for the first occurrence of the
pattern in the concatenated normalized stream. -/
theorem all_matches_amended (words : List Word) (pn : List Char) :
    (∀ i (hi : i < words.length), normalize_text (words.get ⟨i, hi⟩).text = pn →
        Emit.single (words.get ⟨i, hi⟩) ∈ tier12Spans words pn)
    ∧ (∀ i (hi : i < words.length),
        normalize_text (words.get ⟨i, hi⟩).text ≠ pn →
        (greedyExtend (words.drop (i + 1)) (normalize_text (words.get ⟨i, hi⟩).text)
          [words.get ⟨i, hi⟩] pn.length).1 = pn →
        1 < (greedyExtend (words.drop (i + 1)) (normalize_text (words.get ⟨i, hi⟩).text)
          [words.get ⟨i, hi⟩] pn.length).2.length →
        Emit.multi ((greedyExtend (words.drop (i + 1)) (normalize_text (words.get ⟨i, hi⟩).text)
          [words.get ⟨i, hi⟩] pn.length).2) ∈ tier12Spans words pn)
    ∧ (fallbackSpans words pn).length ≤ 1
    ∧ ∀ wl, Emit.fallback wl ∈ fallbackSpans words pn →
        ∃ st, firstOccur (catNorm words) pn = some st
          ∧ pn.isPrefixOf ((catNorm words).drop st) = true
          ∧ (∀ j, j < st → pn.isPrefixOf ((catNorm words).drop j) = false)
          ∧ wl = overlapWords words 0 st (st + pn.length) := by
  refine ⟨mem_tier12_single words pn, mem_tier12_multi words pn, ?_, ?_⟩
  · unfold fallbackSpans
    cases hf : firstOccur (catNorm words) pn with
    | none => simp
    | some st =>
      by_cases h : overlapWords words 0 st (st + pn.length) = [] <;> simp [h]
  · intro wl hwl
    unfold fallbackSpans at hwl
    cases hf : firstOccur (catNorm words) pn with
    | none => rw [hf] at hwl; simp at hwl
    | some st =>
      rw [hf] at hwl
      by_cases h : overlapWords words 0 st (st + pn.length) = []
      · simp [h] at hwl
      · simp [h] at hwl
        rcases firstOccur_spec _ _ _ hf with ⟨h1, h2⟩
        exact ⟨st, rfl, h1, h2, hwl⟩

/-- Witness for `all_matches_amended`: a tier-1 match is emitted, and the
fallback list has at most one entry. -/
theorem all_matches_amended_witness :
    Emit.single ⟨"ab".toList, 0, 0, 10, 10⟩
      ∈ tier12Spans [⟨"ab".toList, 0, 0, 10, 10⟩] ("ab".toList)
    ∧ (fallbackSpans [⟨"ab".toList, 0, 0, 10, 10⟩] ("ab".toList)).length ≤ 1 := by
  have h := all_matches_amended [⟨"ab".toList, 0, 0, 10, 10⟩] ("ab".toList)
  exact ⟨h.1 0 (by norm_num) (by decide), h.2.2.1⟩

/-- C1 counterexample: for the tier-2 span `["ab", "cd"]` matched by
pattern `"abcd"`, both emitted regions (tier 2 and fallback) have
`x1 = 22`, exactly the unwidened `max(left+width)` of the span — although
any padding ratio above 1, including the build's 1.15, would give a
strictly larger value.  So `x1` is not widened for every span kind. -/
theorem padding_counterexample :
    (patternRegions [⟨"ab".toList, 0, 0, 10, 10⟩, ⟨"cd".toList, 12, 0, 10, 10⟩]
        ("abcd".toList) 1).map Region.x1 = [22, 22]
    ∧ (aabbOf [⟨"ab".toList, 0, 0, 10, 10⟩, ⟨"cd".toList, 12, 0, 10, 10⟩]).x1 = 22
    ∧ ((22 : ℚ) < 22 * (23/20)) := by
  have hspans : patternSpans [⟨"ab".toList, 0, 0, 10, 10⟩, ⟨"cd".toList, 12, 0, 10, 10⟩]
      ("abcd".toList)
      = [Emit.multi [⟨"ab".toList, 0, 0, 10, 10⟩, ⟨"cd".toList, 12, 0, 10, 10⟩],
         Emit.fallback [⟨"ab".toList, 0, 0, 10, 10⟩, ⟨"cd".toList, 12, 0, 10, 10⟩]] := by
    decide
  refine ⟨?_, ?_, by norm_num⟩
  · rw [patternRegions, hspans]
    norm_num [regionOf, rectMulti, scaleTrunc, aabbOf, foldMin, foldMax, truncQ]
  · norm_num [aabbOf, foldMax]

/-- C1 amended: only the single-fragment path widens `x1`, by the padding
ratio applied to the fragment's width before scaling and truncation; for a
fixed fragment, a larger padding ratio increases the truncated `x1 − x0`
monotonically (strictly before truncation, given positive width and
scale); tier-2 and fallback regions use the unwidened bounding-box
`x1 = int(max(left+width) · scale)`. -/
theorem padding_amended (w : Word) (wl : List Word) (s p1 p2 : ℚ) :
    rectSingle w s = toRegionSingle w s (23/20)
    ∧ (toRegionSingle w s p1).x1 = truncQ ((w.left + w.width * p1) * s)
    ∧ (0 ≤ w.width → 0 ≤ s → p1 ≤ p2 →
        (toRegionSingle w s p1).x1 - (toRegionSingle w s p1).x0
          ≤ (toRegionSingle w s p2).x1 - (toRegionSingle w s p2).x0)
    ∧ (0 < w.width → 0 < s → p1 < p2 →
        (w.left + w.width * p1) * s - w.left * s < (w.left + w.width * p2) * s - w.left * s)
    ∧ (rectMulti wl s).x1 = truncQ ((aabbOf wl).x1 * s)
    ∧ (∀ w' ∈ wl, w'.left + w'.width ≤ (aabbOf wl).x1) := by
  refine ⟨rfl, rfl, ?_, ?_, rfl, ?_⟩
  · intro hw hs hp
    have hx0 : (toRegionSingle w s p1).x0 = (toRegionSingle w s p2).x0 := rfl
    have hle : (w.left + w.width * p1) * s ≤ (w.left + w.width * p2) * s := by
      apply mul_le_mul_of_nonneg_right ?_ hs
      have := mul_le_mul_of_nonneg_left hp hw
      linarith
    have ht := truncQ_mono hle
    have hx1 : (toRegionSingle w s p1).x1 ≤ (toRegionSingle w s p2).x1 := ht
    rw [hx0]
    omega
  · intro hw hs hp
    have h1 : w.width * p1 < w.width * p2 := mul_lt_mul_of_pos_left hp hw
    have h2 : w.width * p1 * s < w.width * p2 * s := mul_lt_mul_of_pos_right h1 hs
    have e1 : (w.left + w.width * p1) * s - w.left * s = w.width * p1 * s := by ring
    have e2 : (w.left + w.width * p2) * s - w.left * s = w.width * p2 * s := by ring
    rw [e1, e2]
    exact h2
  · intro w' hw'
    exact le_foldMax (fun v => v.left + v.width) hw'

/-- Witness for `padding_amended`: a width-10 fragment, scale 1, ratios 1
and 1.15. -/
theorem padding_amended_witness :
    (toRegionSingle ⟨"x".toList, 0, 0, 10, 10⟩ 1 1).x1
        - (toRegionSingle ⟨"x".toList, 0, 0, 10, 10⟩ 1 1).x0
      ≤ (toRegionSingle ⟨"x".toList, 0, 0, 10, 10⟩ 1 (23/20)).x1
        - (toRegionSingle ⟨"x".toList, 0, 0, 10, 10⟩ 1 (23/20)).x0
    ∧ ((0 : ℚ) + 10 * 1) * 1 - 0 * 1 < ((0 : ℚ) + 10 * (23/20)) * 1 - 0 * 1 := by
  have h := padding_amended ⟨"x".toList, 0, 0, 10, 10⟩ [] 1 1 (23/20)
  exact ⟨h.2.2.1 (by norm_num) (by norm_num) (by norm_num),
    h.2.2.2.1 (by norm_num) (by norm_num) (by norm_num)⟩

/-- C2 counterexample: at the PDF scale 72/300, the emitted `x0` is
`int(10 · 72/300) = 2`, while the scale-1 coordinate times the scale is
`10 · 72/300 = 12/5`.  The truncated coordinates are not linear in the
scale, and the PDF (vector) path truncates too. -/
theorem scale_linearity_counterexample :
    ((rectSingle ⟨"x".toList, 10, 0, 10, 10⟩ (72/300)).x0 : ℚ)
      ≠ (72/300) * ((rectSingle ⟨"x".toList, 10, 0, 10, 10⟩ 1).x0 : ℚ) := by
  norm_num [rectSingle, toRegionSingle, scaleTrunc, truncQ]

/-- C2 amended: the coordinates are linear in the scale only before
truncation: each pre-truncation coordinate at scale `s` is `s` times the
pre-truncation coordinate at scale 1; the emitted region is the `int()`
truncation of those values, and the OCR stage produces the same truncated
integer rectangles on the PDF (vector) path as on the raster path — both
paths truncate all four coordinates. -/
theorem scale_linearity_amended (w : Word) (wl : List Word) (q : QRect) (s : ℚ)
    (isPdf : Bool) (search : List Char → List QRect) (patterns : List (List Char))
    (results : List RawResult) (wm : List Char) :
    preCoords q s = ⟨s * (preCoords q 1).x0, s * (preCoords q 1).y0,
        s * (preCoords q 1).x1, s * (preCoords q 1).y1⟩
    ∧ scaleTrunc q s = ⟨truncQ (preCoords q s).x0, truncQ (preCoords q s).y0,
        truncQ (preCoords q s).x1, truncQ (preCoords q s).y1⟩
    ∧ rectSingle w s
        = scaleTrunc ⟨w.left, w.top, w.left + w.width * (23/20), w.top + w.height⟩ s
    ∧ rectMulti wl s = scaleTrunc (aabbOf wl) s
    ∧ intRects (pageEffects isPdf search patterns results wm)
        = allRegions patterns (build_ocr_words results)
            (if isPdf then (72 : ℚ) / 300 else 1) := by
  refine ⟨?_, rfl, rfl, rfl, intRects_pageEffects isPdf search patterns results wm⟩
  unfold preCoords
  simp only [QRect.mk.injEq]
  refine ⟨by ring, by ring, by ring, by ring⟩

end DocShade
